/-
Verification of the arbitrage-detection subscriber (bellman_ford.py,
lab3.py, fxp_bytes_subscriber.py) against its natural-language
specification.

Shallow embedding conventions:
* Python `dict`s (insertion-ordered, unique keys) are modelled as
  association lists `List (String × β)`; iteration order is list order,
  matching CPython's insertion-order iteration.  Where a proof needs the
  dict invariant that keys are unique, it takes an explicit `Nodup`
  well-formedness hypothesis.
* Python float arithmetic on graph weights and tolerances is idealised
  over an arbitrary linear ordered ring `α` (instantiated at `ℤ` for
  concrete evaluation and at `ℝ` where the code applies `math.log`);
  timestamps are integer microsecond ticks, as on the wire.  `float("Inf")` is modelled by `Option α` with
  `none` standing for `+∞`; arithmetic that the code performs on possibly
  infinite values is modelled case by case, with `INF - INF` (a float
  NaN) and `x - INF` (`-inf`) both failing every `> tolerance` test, just
  as they do in Python.
* The `distance` and `predecessor` dictionaries of `BellmandFord` are
  modelled as total functions `String → Option _`; the code initialises
  them on exactly the graph's keys, and a missing key (Python `KeyError`)
  coincides with the `none` branch wherever the algorithm can reach one.
* Code that can raise (`KeyError` in the predecessor walk, `ValueError` /
  `IndexError` in the codec, `IndexError` on an empty first batch) is
  embedded in `Except Unit`.  The unbounded `while True:` walk of
  `_identify_neg_cycle` takes a fuel parameter; running out of fuel is an
  `.error`, never a fabricated result.
-/
import Mathlib

/-! ### Association-list model of Python dicts -/

/-- `d[k]` as a total lookup: first binding of `k`, if any. -/
def alookup {β : Type} : List (String × β) → String → Option β
  | [], _ => none
  | (k, v) :: rest, a => if a = k then some v else alookup rest a

/-- `d[k] = v`: replace the first binding of `k`, or append a new one
(CPython appends fresh keys at the end of the iteration order). -/
def aset {β : Type} : List (String × β) → String → β → List (String × β)
  | [], k, v => [(k, v)]
  | (k2, v2) :: rest, k, v =>
      if k = k2 then (k, v) :: rest else (k2, v2) :: aset rest k v

/-- `del d[k]`: drop the first binding of `k` (a dict has at most one). -/
def adel {β : Type} : List (String × β) → String → List (String × β)
  | [], _ => []
  | (k2, v2) :: rest, k => if k = k2 then rest else (k2, v2) :: adel rest k

/-- Lookup in a nested dict: `d[a][b]` with `none` for either missing key. -/
def lookup2 {β : Type} (st : List (String × List (String × β))) (a b : String) :
    Option β :=
  match alookup st a with
  | none => none
  | some inner => alookup inner b

/-- `if a not in d: d[a] = {}` followed by `d[a][b] = v`. -/
def set2 {β : Type} (st : List (String × List (String × β))) (a b : String)
    (v : β) : List (String × List (String × β)) :=
  match alookup st a with
  | none => aset st a [(b, v)]
  | some inner => aset st a (aset inner b v)

/-- `del d[a][b]` (no-op when `a` is absent, as the callers guarantee). -/
def del2 {β : Type} (st : List (String × List (String × β))) (a b : String) :
    List (String × List (String × β)) :=
  match alookup st a with
  | none => st
  | some inner => aset st a (adel inner b)

/-- Point update of a total-function model of a dict. -/
def upd {β : Type} (f : String → β) (k : String) (v : β) : String → β :=
  fun x => if x = k then v else f x

/-! ### bellman_ford.py: data model -/

/-- A weighted digraph, `Dict[str, Dict[str, float]]` in the source:
outer list = vertices in insertion order, inner list = out-neighbours. -/
abbrev Graph (α : Type) : Type := List (String × List (String × α))

/-- The `_distance` / `_predecessor` state of a `BellmandFord` run.
`dist v = none` models `float("Inf")`; `pred v = none` models both the
initial `None` predecessor and an uninitialised key. -/
structure BFState (α : Type) where
  dist : String → Option α
  pred : String → Option String

/-- `self._distance[u] + self._graph[u][v]`: float addition where `u`'s
distance may be `+∞` (then the sum is `+∞`). -/
def efAdd {α : Type} [LinearOrderedRing α] (d : Option α) (w : α) : Option α :=
  d.map (fun x => x + w)

/-- The test of `_distance_improved` (bellman_ford.py line 96):
`prev_distance - new_distance > tolerance` where `prev = distance[v]`,
`new = distance[u] + w`.  With `distance[u] = +∞` the difference is `NaN`
or `-∞` and the comparison is `False`; with only `distance[v] = +∞` it is
`+∞ > tolerance`, i.e. `True`. -/
def improveCond {α : Type} [LinearOrderedRing α] (tol : α) (du dv : Option α)
    (w : α) : Bool :=
  match du, dv with
  | none, _ => false
  | some _, none => true
  | some u, some v => decide (v - (u + w) > tol)

/-- The boolean of `_should_relax` (bellman_ford.py lines 122-126):
either `distance[u] ≠ ∞ ∧ distance[v] = ∞`, or `_distance_improved`. -/
def should_relax {α : Type} [LinearOrderedRing α] (tol : α) (du dv : Option α)
    (w : α) : Bool :=
  (du.isSome && dv.isNone) || improveCond tol du dv w

/-- The assignment pair `distance[v] = distance[u] + w; predecessor[v] = u`
(bellman_ford.py lines 155-157 and 97-99). -/
def bfAssign {α : Type} [LinearOrderedRing α] (st : BFState α) (u v : String)
    (w : α) : BFState α :=
  { dist := upd st.dist v (efAdd (st.dist u) w)
    pred := upd st.pred v (some u) }

/-- One edge step of `_relax_edges`: evaluate `_should_relax(u, v)` and, if
it returns `True`, perform the assignment of lines 155-157.  Note that in
the `_distance_improved` branch the source has already performed an
identical assignment inside `_distance_improved` (lines 97-99) before
`_relax_edges` assigns again; the second assignment reads the state left
by the first, which matters exactly when `u = v`. -/
def relaxEdge {α : Type} [LinearOrderedRing α] (tol : α) (st : BFState α)
    (u v : String) (w : α) : BFState α :=
  match st.dist u, st.dist v with
  | some _, none => bfAssign st u v w
  | du, dv =>
      if improveCond tol du dv w then bfAssign (bfAssign st u v w) u v w
      else st

/-- One full pass of `_relax_edges` over `for u in graph: for v in graph[u]`. -/
def relaxPass {α : Type} [LinearOrderedRing α] (tol : α) (g : Graph α)
    (st : BFState α) : BFState α :=
  g.foldl (fun st1 e => e.2.foldl (fun st2 p => relaxEdge tol st2 e.1 p.1 p.2) st1) st

/-- `_initialize_vertex_data`: every vertex at `+∞` / `None`, then
`distance[start] = 0`. -/
def initState {α : Type} [LinearOrderedRing α] (start : String) : BFState α :=
  { dist := fun v => if v = start then some 0 else none
    pred := fun _ => none }

/-- `shortest_paths` (bellman_ford.py lines 217-231): initialise, then run
`_relax_edges`, whose outer loop is `for _ in range(len(graph) - 1)` with
no early exit. -/
def shortest_paths {α : Type} [LinearOrderedRing α] (g : Graph α)
    (start : String) (tol : α) : BFState α :=
  (relaxPass tol g)^[g.length - 1] (initState start)

/-! Comparison model for claim C2, written from the specification's words
(§4.4): a single conditional assignment per edge, updating
`distance[v] := distance[u] + w` exactly when `distance[u] ≠ +∞` and
`distance[v] - (distance[u] + w) > tolerance` (with `∞ - finite > tol`
read as true), with no double assignment. -/

/-- Spec-side edge relaxation (one assignment), per §4.4 step 2. -/
def specRelaxEdge {α : Type} [LinearOrderedRing α] (tol : α) (st : BFState α)
    (u v : String) (w : α) : BFState α :=
  match st.dist u with
  | none => st
  | some du =>
      match st.dist v with
      | none => bfAssign st u v w
      | some dv => if dv - (du + w) > tol then bfAssign st u v w else st

/-- Spec-side relaxation pass over the same edge order. -/
def specRelaxPass {α : Type} [LinearOrderedRing α] (tol : α) (g : Graph α)
    (st : BFState α) : BFState α :=
  g.foldl (fun st1 e => e.2.foldl (fun st2 p => specRelaxEdge tol st2 e.1 p.1 p.2) st1) st

/-- Spec-side `shortest_paths`, per §4.4: same initialisation, exactly
`|V| - 1` passes, single assignment per accepted edge. -/
def spec_shortest_paths {α : Type} [LinearOrderedRing α] (g : Graph α)
    (start : String) (tol : α) : BFState α :=
  (specRelaxPass tol g)^[g.length - 1] (initState start)

/-! ### bellman_ford.py: negative-cycle extraction -/

/-- `n` iterations of `start_vertex = self._predecessor[start_vertex]`
(bellman_ford.py lines 167-168).  A step fails (`none`) when the current
vertex has predecessor `None` or is not a key: in Python both surface as
a `KeyError` on the next dictionary access, and no execution path of
`_identify_neg_cycle` returns normally once that happens. -/
def predWalk (p : String → Option String) (x : String) : Nat → Option String
  | 0 => some x
  | Nat.succ n =>
      match p x with
      | none => none
      | some y => predWalk p y n

/-- The `while True:` loop of lines 174-180: append the current vertex,
stop once the landing vertex `s` is appended a second time, otherwise
step to its predecessor.  `fuel` bounds the unrolling; exhausting it is
an `.error` (the Python loop would still be running), never a result. -/
def collectCycleAux (p : String → Option String) (s : String) :
    Nat → String → List String → Except Unit (List String)
  | 0, _, _ => .error ()
  | Nat.succ fuel, x, acc =>
      let acc2 := acc ++ [x]
      if x = s ∧ acc ≠ [] then .ok acc2
      else
        match p x with
        | none => .error ()
        | some y => collectCycleAux p s fuel y acc2

/-- `self._graph[u][v]` with `KeyError` as `.error`. -/
def edgeWeight {α : Type} (g : Graph α) (u v : String) : Except Unit α :=
  match alookup g u with
  | none => .error ()
  | some nbrs =>
      match alookup nbrs v with
      | none => .error ()
      | some w => .ok w

/-- The weight sum of lines 185-188: left-to-right sum of
`graph[cycle[i]][cycle[i+1]]` over consecutive pairs. -/
def cycleWeightAux {α : Type} [LinearOrderedRing α] (g : Graph α) :
    List String → α → Except Unit α
  | [], acc => .ok acc
  | [_], acc => .ok acc
  | u :: v :: rest, acc =>
      match edgeWeight g u v with
      | .error e => .error e
      | .ok w => cycleWeightAux g (v :: rest) (acc + w)

/-- `_identify_neg_cycle` (bellman_ford.py lines 159-194): walk `|V|`
predecessor steps from the flagged vertex, collect the walk until the
landing vertex repeats, reverse it, sum its edge weights, and return the
cycle only if the sum is `≤ -tolerance`, else the empty list. -/
def identify_neg_cycle {α : Type} [LinearOrderedRing α] (g : Graph α)
    (p : String → Option String) (tol : α) (fuel : Nat) (v : String) :
    Except Unit (List String) :=
  match predWalk p v g.length with
  | none => .error ()
  | some s =>
      match collectCycleAux p s fuel s [] with
      | .error e => .error e
      | .ok cyc =>
          let rcyc := cyc.reverse
          match cycleWeightAux g rcyc 0 with
          | .error e => .error e
          | .ok wsum => .ok (if wsum ≤ -tol then rcyc else [])

/-- The scan condition of `get_negative_cycle` (lines 208-210), exactly as
written in the source: `distance[u] != INF and
distance[v] < distance[u] + graph[u][v]` (note the direction of the
comparison, and that no tolerance appears). -/
def codeFlag {α : Type} [LinearOrderedRing α] (du dv : Option α) (w : α) :
    Bool :=
  match du, dv with
  | some u, some v => decide (v < u + w)
  | _, _ => false

/-- Inner loop of `get_negative_cycle`: scan `u`'s out-edges in order; on a
flagged edge run `_identify_neg_cycle(v)` and return its result, except
that a `KeyError` (`.error`) is swallowed by the `try/except` and the scan
continues. -/
def scanInner {α : Type} [LinearOrderedRing α] (g : Graph α) (st : BFState α)
    (tol : α) (fuel : Nat) (u : String) :
    List (String × α) → Option (List String)
  | [] => none
  | (v, w) :: rest =>
      if codeFlag (st.dist u) (st.dist v) w then
        match identify_neg_cycle g st.pred tol fuel v with
        | .ok l => some l
        | .error _ => scanInner g st tol fuel u rest
      else scanInner g st tol fuel u rest

/-- Outer loop of `get_negative_cycle` over the vertices in order. -/
def scanOuter {α : Type} [LinearOrderedRing α] (g : Graph α) (st : BFState α)
    (tol : α) (fuel : Nat) : List (String × List (String × α)) → List String
  | [] => []
  | (u, nbrs) :: rest =>
      match scanInner g st tol fuel u nbrs with
      | some l => l
      | none => scanOuter g st tol fuel rest

/-- `get_negative_cycle` (bellman_ford.py lines 196-215). -/
def get_negative_cycle {α : Type} [LinearOrderedRing α] (g : Graph α)
    (st : BFState α) (tol : α) (fuel : Nat) : List String :=
  scanOuter g st tol fuel g

/-- All edges flagged by the source's scan condition (lines 208-210), in
scan order.  Extraction is attempted exactly at the edges of this list. -/
def code_flag_edges {α : Type} [LinearOrderedRing α] (g : Graph α)
    (d : String → Option α) : List (String × String) :=
  g.foldr
    (fun e acc =>
      (e.2.filter (fun p => codeFlag (d e.1) (d p.1) p.2)).map
        (fun p => (e.1, p.1)) ++ acc) []

/-- The flagging condition claimed by the specification (§4.5):
`distance[u] ≠ +∞ and distance[v] > distance[u] + w + tolerance`
(with `distance[v] = +∞` counting as greater than everything). -/
def claimFlag {α : Type} [LinearOrderedRing α] (tol : α) (du dv : Option α)
    (w : α) : Bool :=
  match du, dv with
  | none, _ => false
  | some _, none => true
  | some u, some v => decide (v > u + w + tol)

/-- All edges satisfying the specification's claimed flagging condition. -/
def claim_flag_edges {α : Type} [LinearOrderedRing α] (tol : α) (g : Graph α)
    (d : String → Option α) : List (String × String) :=
  g.foldr
    (fun e acc =>
      (e.2.filter (fun p => claimFlag tol (d e.1) (d p.1) p.2)).map
        (fun p => (e.1, p.1)) ++ acc) []

/-! ### lab3.py: quote store, eviction, rate lookup -/

/-- `QuoteData` (bellman_ford.py lines 16-20): `(timestamp, exch_rate)`.
Timestamps are integer ticks (the wire carries integer microseconds since
the epoch, and lab3.py only ever compares and subtracts them); rates are
rationals. -/
abbrev QuoteData : Type := ℤ × ℚ

/-- `self._published_quotes : Dict[str, Dict[str, QuoteData]]`. -/
abbrev QStore : Type := List (String × List (String × QuoteData))

/-- One record produced by `unmarshal_message` as consumed by lab3.py. -/
structure PublishedQuote where
  timestamp : ℤ
  curr1 : String
  curr2 : String
  rate : ℚ

/-- The subscriber state touched by `_update_published_quotes`:
the quote store and the `_latest_timestamp` watermark (`None` initially). -/
structure SubState where
  published_quotes : QStore
  latest_timestamp : Option ℤ

/-- The per-record body of the loop in `_update_published_quotes`
(lab3.py lines 177-191), threading `(watermark, store)`:
skip the record when `watermark > timestamp`, otherwise advance the
watermark and upsert the `(curr1, curr2)` entry. -/
def quote_step (acc : ℤ × QStore) (q : PublishedQuote) : ℤ × QStore :=
  if acc.1 > q.timestamp then acc
  else (q.timestamp, set2 acc.2 q.curr1 q.curr2 (q.timestamp, q.rate))

/-- `_update_published_quotes` (lab3.py lines 164-191): when no quote has
ever been seen, seed the watermark from `published_quotes[0]` (an
`IndexError`, modelled `.error`, on an empty first batch), then apply
every record in array order. -/
def update_published_quotes (st : SubState) (batch : List PublishedQuote) :
    Except Unit SubState :=
  match st.latest_timestamp with
  | some w =>
      let r := batch.foldl quote_step (w, st.published_quotes)
      .ok ⟨r.2, some r.1⟩
  | none =>
      match batch with
      | [] => .error ()
      | q :: _ =>
          let r := batch.foldl quote_step (q.timestamp, st.published_quotes)
          .ok ⟨r.2, some r.1⟩

/-- `_clean_stale_quotes` (lab3.py lines 61-77): iterate a deep copy of the
store (the fold ranges over the original list, which is exactly the
snapshot) and `del` every entry older than `staleDef` seconds relative to
`currTime`.  `staleDef` stands for the module constant
`STALE_QUOTE_DEF` (1.5 seconds, in the same ticks as the timestamps). -/
def clean_stale_quotes (staleDef currTime : ℤ) (store : QStore) : QStore :=
  store.foldl
    (fun acc e =>
      e.2.foldl
        (fun acc2 q =>
          if currTime - q.2.1 > staleDef then del2 acc2 e.1 q.1 else acc2)
        acc)
    store

/-- `_get_exchange_rate` (lab3.py lines 100-114): forward lookup, falling
back on the reverse-direction entry's rate — note the source returns that
rate itself, not its reciprocal.  A miss in both directions is an
uncaught `KeyError` (`.error`). -/
def get_exchange_rate (store : QStore) (src dest : String) : Except Unit ℚ :=
  match lookup2 store src dest with
  | some q => .ok q.2
  | none =>
      match lookup2 store dest src with
      | some q => .ok q.2
      | none => .error ()

/-- Comparison model for claim C3, written from the specification's words
(§4.6): forward lookup in the Quote Store, "falling back to the
reciprocal of the reverse-direction quote". -/
def spec_get_exchange_rate (store : QStore) (src dest : String) :
    Except Unit ℚ :=
  match lookup2 store src dest with
  | some q => .ok q.2
  | none =>
      match lookup2 store dest src with
      | some q => .ok (1 / q.2)
      | none => .error ()

/-! ### fxp_bytes_subscriber.py: wire codec -/

/-- Big-endian value of a byte string, as produced by
`array(t).frombytes(b); arr.byteswap(); arr[0]` on a little-endian host. -/
def beUint (bs : List ℕ) : ℕ := bs.foldl (fun acc b => acc * 256 + b) 0

/-- `_deserialize_message` (fxp_bytes_subscriber.py lines 35-39) for an
8-byte item code (`'Q'` and `'d'` both have itemsize 8):
`array.frombytes` raises `ValueError` unless the buffer length is a
multiple of 8, and `arr[0]` raises `IndexError` on an empty buffer; both
are `.error`.  Otherwise the first item is returned; the 8 bytes of an
IEEE double are modelled by their raw big-endian bit pattern, whose value
no claim inspects. -/
def deserialize_u64 (bs : List ℕ) : Except Unit ℕ :=
  if bs.length % 8 = 0 then
    match bs with
    | [] => .error ()
    | _ => .ok (beUint (bs.take 8))
  else .error ()

/-- One decoded wire record: the fields `_unmarshal_message` extracts from
a 32-byte window (currencies kept as raw byte slices, the rate as its bit
pattern; neither conversion matters to any claim). -/
structure WireRecord where
  timestamp : ℕ
  curr1 : List ℕ
  curr2 : List ℕ
  ratebits : ℕ
deriving DecidableEq

/-- The loop body of `_unmarshal_message` on `message[idx:idx+32]`:
slices `[0:8]`, `[8:11]`, `[11:14]`, `[14:22]` (Python slicing truncates
at the end of the buffer, so a short final chunk yields short slices). -/
def decodeChunk (chunk : List ℕ) : Except Unit WireRecord :=
  match deserialize_u64 (chunk.take 8) with
  | .error e => .error e
  | .ok ts =>
      match deserialize_u64 ((chunk.drop 14).take 8) with
      | .error e => .error e
      | .ok rb => .ok ⟨ts, (chunk.drop 8).take 3, (chunk.drop 11).take 3, rb⟩

/-- `_unmarshal_message` (fxp_bytes_subscriber.py lines 49-63): process
`message[idx:idx+32]` for `idx in range(0, len(message), 32)` — i.e. one
chunk per started 32-byte window, including a partial final one.  The
records the loop materialises (the source only prints them and returns
`None`) are collected in order; the first exception aborts the whole
batch as `.error`. -/
def unmarshalAux : Nat → List ℕ → Except Unit (List WireRecord)
  | _, [] => .ok []
  | 0, _ :: _ => .ok []
  | Nat.succ n, b :: tl =>
      match decodeChunk ((b :: tl).take 32) with
      | .error e => .error e
      | .ok r =>
          match unmarshalAux n ((b :: tl).drop 32) with
          | .error e => .error e
          | .ok rest => .ok (r :: rest)

/-- Entry point: `unmarshalAux` is run with `msg.length` steps of structural
fuel, which always suffices because each 32-byte window consumes at least
one byte; the `0, _ :: _` branch of `unmarshalAux` is unreachable from
here. -/
def unmarshal_message (msg : List ℕ) : Except Unit (List WireRecord) :=
  unmarshalAux msg.length msg

/-! ### bellman_ford.py: graph construction (`_construct_graph`) -/

/-- `if curr not in graph: graph[curr] = {}` (bellman_ford.py lines
61-67). -/
def ensureKey {β : Type} (st : List (String × List (String × β)))
    (c : String) : List (String × List (String × β)) :=
  match alookup st c with
  | none => aset st c []
  | some _ => st

/-- The body of `_construct_graph`'s inner loop (bellman_ford.py lines
58-70) for one stored quote `(curr1, curr2, (timestamp, rate))`: ensure
both vertices exist, then write `graph[curr1][curr2] = -log(rate)` and
`graph[curr2][curr1] = log(rate)`.  `math.log` on the idealised rational
rate is `Real.log` of its cast. -/
noncomputable def insertQuote (g : Graph ℝ) (it : String × String × QuoteData) :
    Graph ℝ :=
  let g4 := ensureKey (ensureKey g it.1) it.2.1
  let g5 := set2 g4 it.1 it.2.1 (-Real.log ((it.2.2.2 : ℚ) : ℝ))
  set2 g5 it.2.1 it.1 (Real.log ((it.2.2.2 : ℚ) : ℝ))

/-- `_construct_graph` (bellman_ford.py lines 42-72): fold `insertQuote`
over the store in iteration order, starting from the empty graph. -/
noncomputable def construct_graph (pq : QStore) : Graph ℝ :=
  pq.foldl (fun g e => e.2.foldl (fun g2 q => insertQuote g2 (e.1, q.1, q.2)) g) []

/-- The store's quotes flattened in iteration order:
`(curr1, curr2, data)` for `curr1 in store` and `curr2 in store[curr1]`. -/
def quoteItems (pq : QStore) : List (String × String × QuoteData) :=
  pq.foldr (fun e acc => e.2.map (fun q => (e.1, q.1, q.2)) ++ acc) []

/-- The ordered currency pairs holding a stored quote. -/
def storePairs (pq : QStore) : List (String × String) :=
  (quoteItems pq).map (fun it => (it.1, it.2.1))

/-- Every currency that appears in some stored quote, as source or
destination. -/
def quoteCurrencies (pq : QStore) : List String :=
  (quoteItems pq).foldr (fun it acc => it.1 :: it.2.1 :: acc) []

/-- No edge of the graph is a self-loop. -/
def noSelfLoops {α : Type} (g : Graph α) : Bool :=
  g.all (fun e => e.2.all (fun p => decide (e.1 ≠ p.1)))

/-- The invariant every Python nested dict satisfies by construction:
outer keys are distinct, and so are the inner keys of each entry. -/
def wfStore {β : Type} (st : List (String × List (String × β))) : Prop :=
  (st.map Prod.fst).Nodup ∧ ∀ e ∈ st, (e.2.map Prod.fst).Nodup

/-- Claim C10's invariant: every stored quote's timestamp is bounded by
the feed watermark (which in particular exists once the store is
non-empty). -/
def StoreInv (st : SubState) : Prop :=
  ∀ a b q, lookup2 st.published_quotes a b = some q →
    ∃ w, st.latest_timestamp = some w ∧ q.1 ≤ w

/-- The `(curr1, curr2)` pairs `_clean_stale_quotes` deletes: the stored
quotes older than `staleDef`, in iteration order. -/
def staleItems (staleDef currTime : ℤ) (store : QStore) : List (String × String) :=
  ((quoteItems store).filter (fun it => decide (currTime - it.2.2.1 > staleDef))).map
    (fun it => (it.1, it.2.1))

/-! ### Helper lemmas on the dict model -/

theorem alookup_aset {β : Type} (l : List (String × β)) (k a : String) (v : β) :
    alookup (aset l k v) a = if a = k then some v else alookup l a := by
  induction l with
  | nil => by_cases ha : a = k <;> simp [aset, alookup, ha]
  | cons e rest ih =>
      obtain ⟨k2, v2⟩ := e
      by_cases hk : k = k2
      · subst hk
        by_cases ha : a = k <;> simp [aset, alookup, ha]
      · by_cases ha : a = k2
        · subst ha
          have hak : ¬ a = k := fun h => hk h.symm
          simp [aset, hk, alookup, hak]
        · simp [aset, hk, alookup, ha, ih]

theorem mem_aset {β : Type} {l : List (String × β)} {k a : String} {v w : β}
    (h : (a, w) ∈ aset l k v) : (a, w) = (k, v) ∨ (a, w) ∈ l := by
  induction l with
  | nil => simpa [aset] using h
  | cons e rest ih =>
      obtain ⟨k2, v2⟩ := e
      by_cases hk : k = k2
      · subst hk
        rcases (by simpa [aset] using h : (a, w) = (k, v) ∨ (a, w) ∈ rest) with h1 | h1
        · exact Or.inl h1
        · exact Or.inr (List.mem_cons_of_mem _ h1)
      · rcases (by simpa [aset, hk] using h :
            (a = k2 ∧ w = v2) ∨ (a, w) ∈ aset rest k v) with h1 | h1
        · exact Or.inr (by simp [h1.1, h1.2])
        · rcases ih h1 with h2 | h2
          · exact Or.inl h2
          · exact Or.inr (List.mem_cons_of_mem _ h2)

theorem mem_keys_aset {β : Type} (l : List (String × β)) (k a : String) (v : β) :
    a ∈ (aset l k v).map Prod.fst ↔ a = k ∨ a ∈ l.map Prod.fst := by
  induction l with
  | nil => simp [aset]
  | cons e rest ih =>
      obtain ⟨k2, v2⟩ := e
      by_cases hk : k = k2
      · subst hk; simp [aset]
      · simp [aset, hk, ih]
        tauto

theorem not_mem_keys {β : Type} {l : List (String × β)} {a : String} :
    a ∉ l.map Prod.fst ↔ ∀ v, (a, v) ∉ l := by
  constructor
  · intro h v hv
    exact h (List.mem_map.mpr ⟨(a, v), hv, rfl⟩)
  · intro h hm
    rcases List.mem_map.mp hm with ⟨⟨x1, x2⟩, hx, he⟩
    cases he
    exact h x2 hx

theorem nodup_keys_aset {β : Type} {l : List (String × β)} (k : String) (v : β)
    (h : (l.map Prod.fst).Nodup) : ((aset l k v).map Prod.fst).Nodup := by
  induction l with
  | nil => simp [aset]
  | cons e rest ih =>
      obtain ⟨k2, v2⟩ := e
      rw [List.map_cons, List.nodup_cons] at h
      by_cases hk : k = k2
      · subst hk
        simpa [aset] using h
      · have h2 : ((aset rest k v).map Prod.fst).Nodup := ih h.2
        have h3 : k2 ∉ (aset rest k v).map Prod.fst := by
          intro hmem
          rcases (mem_keys_aset rest k k2 v).mp hmem with h4 | h4
          · exact hk h4.symm
          · exact h.1 h4
        rw [aset, if_neg hk, List.map_cons, List.nodup_cons]
        exact ⟨h3, h2⟩

theorem adel_sublist {β : Type} (l : List (String × β)) (k : String) :
    (adel l k).Sublist l := by
  induction l with
  | nil => simp [adel]
  | cons e rest ih =>
      obtain ⟨k2, v2⟩ := e
      by_cases hk : k = k2
      · rw [adel, if_pos hk]
        exact List.sublist_cons_self _ _
      · simpa [adel, hk] using ih.cons₂ (k2, v2)

theorem alookup_adel_ne {β : Type} {l : List (String × β)} {k a : String}
    (h : a ≠ k) : alookup (adel l k) a = alookup l a := by
  induction l with
  | nil => simp [adel]
  | cons e rest ih =>
      obtain ⟨k2, v2⟩ := e
      by_cases hk : k = k2
      · subst hk
        simp [adel, alookup, h]
      · by_cases ha : a = k2 <;> simp [adel, hk, alookup, ha, ih]

theorem alookup_none_of_not_mem {β : Type} {l : List (String × β)} {a : String}
    (h : a ∉ l.map Prod.fst) : alookup l a = none := by
  induction l with
  | nil => simp [alookup]
  | cons e rest ih =>
      obtain ⟨k2, v2⟩ := e
      rw [List.map_cons] at h
      have h1 : ¬ a = k2 := fun he => h (by simp [he])
      have h2 : a ∉ rest.map Prod.fst := fun hm => h (List.mem_cons_of_mem _ hm)
      simp [alookup, h1, ih h2]

theorem alookup_adel_self {β : Type} {l : List (String × β)} {k : String}
    (h : (l.map Prod.fst).Nodup) : alookup (adel l k) k = none := by
  induction l with
  | nil => simp [adel, alookup]
  | cons e rest ih =>
      obtain ⟨k2, v2⟩ := e
      rw [List.map_cons, List.nodup_cons] at h
      by_cases hk : k = k2
      · subst hk
        simpa [adel] using alookup_none_of_not_mem h.1
      · simp [adel, hk, alookup, hk, ih h.2]

theorem alookup_mem {β : Type} {l : List (String × β)} {a : String} {v : β}
    (h : alookup l a = some v) : (a, v) ∈ l := by
  induction l with
  | nil => simp [alookup] at h
  | cons e rest ih =>
      obtain ⟨k2, v2⟩ := e
      by_cases ha : a = k2
      · subst ha
        simp [alookup] at h
        simp [h]
      · simp [alookup, ha] at h
        exact List.mem_cons_of_mem _ (ih h)

theorem alookup_of_mem_nodup {β : Type} {l : List (String × β)} {k : String}
    {v : β} (hm : (k, v) ∈ l) (h : (l.map Prod.fst).Nodup) :
    alookup l k = some v := by
  induction l with
  | nil => simp at hm
  | cons e rest ih =>
      obtain ⟨k2, v2⟩ := e
      rw [List.map_cons, List.nodup_cons] at h
      rcases List.mem_cons.mp hm with he | hm2
      · rw [Prod.mk.injEq] at he
        simp [alookup, he.1, he.2]
      · have hk : ¬ k = k2 := by
          intro hkk
          subst hkk
          exact h.1 (List.mem_map.mpr ⟨(k, v), hm2, rfl⟩)
        simp [alookup, hk, ih hm2 h.2]

theorem lookup2_set2 {β : Type} (st : List (String × List (String × β)))
    (a2 b2 a b : String) (v : β) :
    lookup2 (set2 st a2 b2 v) a b =
      if a = a2 ∧ b = b2 then some v else lookup2 st a b := by
  by_cases ha : a = a2
  · subst ha
    by_cases hb : b = b2
    · subst hb
      cases hl : alookup st a with
      | none => simp [set2, lookup2, hl, alookup_aset, alookup]
      | some inner => simp [set2, lookup2, hl, alookup_aset]
    · cases hl : alookup st a with
      | none => simp [set2, lookup2, hl, alookup_aset, alookup, hb]
      | some inner => simp [set2, lookup2, hl, alookup_aset, hb]
  · cases hl : alookup st a2 with
    | none => simp [set2, lookup2, hl, alookup_aset, ha]
    | some inner => simp [set2, lookup2, hl, alookup_aset, ha]

theorem wf_del2 {β : Type} {st : List (String × List (String × β))}
    (h : wfStore st) (a2 b2 : String) : wfStore (del2 st a2 b2) := by
  unfold del2
  cases hl : alookup st a2 with
  | none => exact h
  | some inner =>
      constructor
      · exact nodup_keys_aset _ _ h.1
      · intro e he
        obtain ⟨e1, e2⟩ := e
        rcases mem_aset he with he2 | he2
        · rw [Prod.mk.injEq] at he2
          rw [he2.2]
          have hn : ((inner.map Prod.fst).Nodup) := h.2 _ (alookup_mem hl)
          exact hn.sublist ((adel_sublist inner b2).map Prod.fst)
        · exact h.2 _ he2

theorem lookup2_del2 {β : Type} {st : List (String × List (String × β))}
    (h : wfStore st) (a2 b2 a b : String) :
    lookup2 (del2 st a2 b2) a b =
      if a = a2 ∧ b = b2 then none else lookup2 st a b := by
  unfold del2
  cases hl : alookup st a2 with
  | none =>
      by_cases hab : a = a2 ∧ b = b2
      · simp [hab, lookup2, hab.1, hl]
      · simp [hab]
  | some inner =>
      by_cases ha : a = a2
      · subst ha
        by_cases hb : b = b2
        · subst hb
          simp [lookup2, alookup_aset,
            alookup_adel_self (h.2 _ (alookup_mem hl))]
        · simp [lookup2, alookup_aset, hb, alookup_adel_ne hb, hl]
      · simp [lookup2, alookup_aset, ha]

theorem wf_delfold {β : Type} (dels : List (String × String)) :
    ∀ (st : List (String × List (String × β))), wfStore st →
      wfStore (dels.foldl (fun acc pr => del2 acc pr.1 pr.2) st) := by
  induction dels with
  | nil => intro st h; simpa using h
  | cons p rest ih =>
      intro st h
      simpa using ih _ (wf_del2 h p.1 p.2)

theorem lookup2_delfold {β : Type} (dels : List (String × String)) :
    ∀ (st : List (String × List (String × β))), wfStore st → ∀ a b,
      lookup2 (dels.foldl (fun acc pr => del2 acc pr.1 pr.2) st) a b =
        if (a, b) ∈ dels then none else lookup2 st a b := by
  induction dels with
  | nil => intro st h a b; simp
  | cons p rest ih =>
      intro st h a b
      rw [List.foldl_cons, ih _ (wf_del2 h p.1 p.2) a b, lookup2_del2 h]
      by_cases hr : (a, b) ∈ rest
      · simp [hr]
      · by_cases hp : (a, b) = p
        · have : a = p.1 ∧ b = p.2 := by
            cases p
            rw [Prod.mk.injEq] at hp
            exact hp
          simp [hr, hp, this]
        · have : ¬ (a = p.1 ∧ b = p.2) := by
            intro hc
            apply hp
            cases p
            simp [hc.1, hc.2]
          simp [hr, hp, this]

theorem quoteItems_cons (e : String × List (String × QuoteData)) (rest : QStore) :
    quoteItems (e :: rest) =
      e.2.map (fun q => (e.1, q.1, q.2)) ++ quoteItems rest := rfl

theorem quoteItems_fst_mem {store : QStore} {a b : String} {q : QuoteData}
    (h : (a, b, q) ∈ quoteItems store) : a ∈ store.map Prod.fst := by
  induction store with
  | nil => simp [quoteItems] at h
  | cons e rest ih =>
      rw [quoteItems_cons] at h
      rcases List.mem_append.mp h with h1 | h1
      · rcases List.mem_map.mp h1 with ⟨q2, _, he⟩
        rw [Prod.mk.injEq] at he
        simp [← he.1]
      · exact List.mem_cons_of_mem _ (ih h1)

theorem mem_quoteItems {store : QStore} (h : wfStore store) (a b : String)
    (q : QuoteData) :
    (a, b, q) ∈ quoteItems store ↔ lookup2 store a b = some q := by
  induction store with
  | nil => simp [quoteItems, lookup2, alookup]
  | cons e rest ih =>
      obtain ⟨e1, inner⟩ := e
      have h1 := h.1
      rw [List.map_cons, List.nodup_cons] at h1
      have hrest : wfStore rest :=
        ⟨h1.2, fun e2 he2 => h.2 e2 (List.mem_cons_of_mem _ he2)⟩
      have hx1 : e1 ∉ rest.map Prod.fst := h1.1
      have hinner : (inner.map Prod.fst).Nodup :=
        h.2 (e1, inner) (List.mem_cons_self _ _)
      rw [quoteItems_cons]
      by_cases ha : a = e1
      · subst ha
        constructor
        · intro hm
          rcases List.mem_append.mp hm with h1 | h1
          · rcases List.mem_map.mp h1 with ⟨q2, hq2, he⟩
            rw [Prod.mk.injEq] at he
            rw [Prod.mk.injEq] at he
            simp [lookup2, alookup]
            have : (b, q) ∈ inner := by
              rcases he with ⟨_, hb, hq⟩
              rw [← hb, ← hq]
              simpa using hq2
            exact alookup_of_mem_nodup this hinner
          · exact absurd (quoteItems_fst_mem h1) hx1
        · intro hl
          simp [lookup2, alookup] at hl
          refine List.mem_append.mpr (Or.inl ?_)
          exact List.mem_map.mpr ⟨(b, q), alookup_mem hl, rfl⟩
      · constructor
        · intro hm
          rcases List.mem_append.mp hm with h1 | h1
          · rcases List.mem_map.mp h1 with ⟨q2, _, he⟩
            rw [Prod.mk.injEq] at he
            exact absurd he.1.symm ha
          · simpa [lookup2, alookup, ha] using (ih hrest).mp h1
        · intro hl
          simp [lookup2, alookup, ha] at hl
          exact List.mem_append.mpr (Or.inr ((ih hrest).mpr (by
            simpa [lookup2] using hl)))

theorem clean_eq_delfold (sd t : ℤ) (store : QStore) :
    clean_stale_quotes sd t store =
      (staleItems sd t store).foldl (fun acc pr => del2 acc pr.1 pr.2) store := by
  have inner_eq : ∀ (e1 : String) (l : List (String × QuoteData)) (acc : QStore),
      l.foldl (fun acc2 q =>
          if t - q.2.1 > sd then del2 acc2 e1 q.1 else acc2) acc =
        ((l.filter (fun it => decide (t - it.2.1 > sd))).map
            (fun q => (e1, q.1))).foldl (fun acc pr => del2 acc pr.1 pr.2) acc := by
    intro e1 l
    induction l with
    | nil => intro acc; rfl
    | cons q qs ih =>
        intro acc
        by_cases hq : t - q.2.1 > sd
        · simp [List.filter_cons, hq, ih]
        · simp [List.filter_cons, hq, ih]
  have main : ∀ (snap : QStore) (acc : QStore),
      snap.foldl (fun acc e =>
          e.2.foldl (fun acc2 q =>
            if t - q.2.1 > sd then del2 acc2 e.1 q.1 else acc2) acc) acc =
        (staleItems sd t snap).foldl (fun acc pr => del2 acc pr.1 pr.2) acc := by
    intro snap
    induction snap with
    | nil => intro acc; rfl
    | cons e rest ih =>
        intro acc
        rw [List.foldl_cons, ih]
        have hsplit : staleItems sd t (e :: rest) =
            ((e.2.filter (fun it => decide (t - it.2.1 > sd))).map
              (fun q => (e.1, q.1))) ++ staleItems sd t rest := by
          unfold staleItems
          rw [quoteItems_cons, List.filter_append, List.map_append]
          congr 1
          rw [List.filter_map, List.map_map]
          rfl
        rw [hsplit, List.foldl_append, inner_eq]
  exact main store store

theorem mem_staleItems {store : QStore} (h : wfStore store) (sd t : ℤ)
    (a b : String) :
    (a, b) ∈ staleItems sd t store ↔
      ∃ q, lookup2 store a b = some q ∧ t - q.1 > sd := by
  unfold staleItems
  constructor
  · intro hm
    rcases List.mem_map.mp hm with ⟨it, hit, he⟩
    obtain ⟨i1, i2, iq⟩ := it
    rw [List.mem_filter] at hit
    rw [Prod.mk.injEq] at he
    obtain ⟨rfl, rfl⟩ := he
    refine ⟨iq, (mem_quoteItems h _ _ _).mp hit.1, by simpa using hit.2⟩
  · intro ⟨q, hq, hstale⟩
    refine List.mem_map.mpr ⟨(a, b, q), ?_, rfl⟩
    rw [List.mem_filter]
    exact ⟨(mem_quoteItems h _ _ _).mpr hq, by simpa using hstale⟩

/-- C8: `_clean_stale_quotes(reference_time)` removes exactly those (A, B)
entries whose `reference_time - entry.timestamp > max_age` (the module
constant `STALE_QUOTE_DEF`, here the parameter `staleDef`), and every
entry within the age window is still present and unchanged afterwards;
the iteration ranges over a snapshot (here: the fold ranges over the
original list while deletions apply to the accumulator), so the
characterisation holds for every well-formed store. -/
theorem C8_evict_exact (staleDef currTime : ℤ) (store : QStore)
    (hwf : wfStore store) (a b : String) :
    lookup2 (clean_stale_quotes staleDef currTime store) a b =
      match lookup2 store a b with
      | some q => if currTime - q.1 > staleDef then none else some q
      | none => none := by
  rw [clean_eq_delfold, lookup2_delfold _ _ hwf]
  cases hq : lookup2 store a b with
  | none =>
      have hnm : (a, b) ∉ staleItems staleDef currTime store := by
        intro hm
        rcases (mem_staleItems hwf _ _ _ _).mp hm with ⟨q, hq2, _⟩
        rw [hq] at hq2
        exact Option.noConfusion hq2
      simp [hnm, hq]
  | some q =>
      by_cases hst : currTime - q.1 > staleDef
      · have hm : (a, b) ∈ staleItems staleDef currTime store :=
          (mem_staleItems hwf _ _ _ _).mpr ⟨q, hq, hst⟩
        simp [hm, hst]
      · have hnm : (a, b) ∉ staleItems staleDef currTime store := by
          intro hm
          rcases (mem_staleItems hwf _ _ _ _).mp hm with ⟨q2, hq2, hst2⟩
          rw [hq] at hq2
          cases hq2
          exact hst hst2
        simp [hnm, hq, hst]

/-- Witness for C8 at a concrete store: with `max_age = 3` and
`reference_time = 5`, the entry stamped `0` (age 5) is evicted and the
entry stamped `10` (age `-5`) is retained unchanged. -/
theorem C8_evict_exact_witness :
    wfStore [("A", [("B", ((0 : ℤ), (1 : ℚ))), ("C", (10, 1))])] ∧
    lookup2 (clean_stale_quotes 3 5
      [("A", [("B", ((0 : ℤ), (1 : ℚ))), ("C", (10, 1))])]) "A" "B" = none ∧
    lookup2 (clean_stale_quotes 3 5
      [("A", [("B", ((0 : ℤ), (1 : ℚ))), ("C", (10, 1))])]) "A" "C" =
      some (10, 1) := by
  refine ⟨⟨by decide, by decide⟩, ?_, ?_⟩
  · exact (C8_evict_exact 3 5 _ ⟨by decide, by decide⟩ "A" "B").trans (by decide)
  · exact (C8_evict_exact 3 5 _ ⟨by decide, by decide⟩ "A" "C").trans (by decide)

/-- Counterexample to C5 as stated: for the batch with timestamps
`[t0, t2, t1] = [10, 5, 4]` (which satisfies the claim's only premise
`t1 < t2`), the store does not accept `t2`: the `(C, D)` quote is absent
afterwards and the watermark stays `10`, because the claimed acceptance
of `t2` also needs `t0 ≤ t2`. -/
theorem C5_counterexample :
    update_published_quotes ⟨[], none⟩
      [⟨10, "A", "B", 1⟩, ⟨5, "C", "D", 1⟩, ⟨4, "E", "F", 1⟩] =
      .ok ⟨[("A", [("B", (10, 1))])], some 10⟩ ∧
    lookup2 ([("A", [("B", ((10 : ℤ), (1 : ℚ)))])] : QStore) "C" "D" = none :=
  ⟨rfl, rfl⟩

/-- C5 (amended): per-record watermark filtering of
`_update_published_quotes` (lab3.py lines 164-191).  A record is rejected
(state unchanged) exactly when its timestamp is strictly below the
current watermark, and otherwise advances the watermark and upserts its
(curr1, curr2) entry; the first quote ever seen seeds the watermark with
its own timestamp and is always accepted.  In particular, for timestamps
`[t0, t2, t1]` with `t0 ≤ t2` and `t1 < t2` on a fresh store, `t0` and
`t2` are accepted and `t1` is rejected. -/
theorem C5_update_amended :
    (∀ (w : ℤ) (store : QStore) (q : PublishedQuote),
        (q.timestamp < w → quote_step (w, store) q = (w, store)) ∧
        (w ≤ q.timestamp →
          quote_step (w, store) q =
            (q.timestamp, set2 store q.curr1 q.curr2 (q.timestamp, q.rate)))) ∧
    (∀ (t0 t1 t2 : ℤ) (r0 r1 r2 : ℚ), t0 ≤ t2 → t1 < t2 →
        update_published_quotes ⟨[], none⟩
          [⟨t0, "A", "B", r0⟩, ⟨t2, "C", "D", r2⟩, ⟨t1, "E", "F", r1⟩] =
          .ok ⟨[("A", [("B", (t0, r0))]), ("C", [("D", (t2, r2))])], some t2⟩) := by
  constructor
  · intro w store q
    constructor
    · intro hlt
      simp [quote_step, hlt]
    · intro hle
      simp [quote_step, not_lt.mpr hle]
  · intro t0 t1 t2 r0 r1 r2 h02 h12
    have h1 : ¬ t0 > t0 := lt_irrefl t0
    have h2 : ¬ t0 > t2 := not_lt.mpr h02
    simp [update_published_quotes, quote_step, h1, h2, h12, set2, alookup, aset]

/-- Witness for C5 (amended) at `t0 = 1 ≤ t2 = 2`, `t1 = 0 < t2`. -/
theorem C5_update_amended_witness :
    (1 : ℤ) ≤ 2 ∧ (0 : ℤ) < 2 ∧
    update_published_quotes ⟨[], none⟩
      [⟨1, "A", "B", 7⟩, ⟨2, "C", "D", 8⟩, ⟨0, "E", "F", 9⟩] =
      .ok ⟨[("A", [("B", (1, 7))]), ("C", [("D", (2, 8))])], some 2⟩ :=
  ⟨by decide, by decide, C5_update_amended.2 1 0 2 7 9 8 (by decide) (by decide)⟩

theorem quote_fold_facts (batch : List PublishedQuote) :
    ∀ (w : ℤ) (store : QStore),
      w ≤ (batch.foldl quote_step (w, store)).1 ∧
      ((∀ a b q, lookup2 store a b = some q → q.1 ≤ w) →
        ∀ a b q, lookup2 (batch.foldl quote_step (w, store)).2 a b = some q →
          q.1 ≤ (batch.foldl quote_step (w, store)).1) := by
  induction batch with
  | nil =>
      intro w store
      exact ⟨le_refl w, fun hb a b q hq => hb a b q hq⟩
  | cons q rest ih =>
      intro w store
      by_cases hq : w > q.timestamp
      · have hstep : quote_step (w, store) q = (w, store) := by
          simp [quote_step, hq]
        rw [List.foldl_cons, hstep]
        exact ih w store
      · have hle : w ≤ q.timestamp := not_lt.mp hq
        have hstep : quote_step (w, store) q =
            (q.timestamp, set2 store q.curr1 q.curr2 (q.timestamp, q.rate)) := by
          simp [quote_step, hq]
        rw [List.foldl_cons, hstep]
        refine ⟨le_trans hle (ih _ _).1, ?_⟩
        intro hb
        refine (ih _ _).2 ?_
        intro a b q2 hq2
        rw [lookup2_set2] at hq2
        by_cases hab : a = q.curr1 ∧ b = q.curr2
        · rw [if_pos hab] at hq2
          cases hq2
          exact le_refl _
        · rw [if_neg hab] at hq2
          exact le_trans (hb a b q2 hq2) hle

/-- C10: the feed watermark is monotone across every completed
`_update_published_quotes` call; every quote in the store is stamped no
later than the watermark, and this invariant is preserved both by the
update and by stale-quote eviction (which only removes entries). -/
theorem C10_watermark_invariant (st : SubState) (batch : List PublishedQuote)
    (st2 : SubState) (h : update_published_quotes st batch = .ok st2)
    (sd t : ℤ) (hwf : wfStore st2.published_quotes) :
    (∀ w, st.latest_timestamp = some w →
        ∃ w2, st2.latest_timestamp = some w2 ∧ w ≤ w2) ∧
    (StoreInv st → StoreInv st2) ∧
    (StoreInv st2 →
      StoreInv ⟨clean_stale_quotes sd t st2.published_quotes,
        st2.latest_timestamp⟩) := by
  refine ⟨?_, ?_, ?_⟩
  · intro w hw
    rw [update_published_quotes.eq_def, hw] at h
    simp only [Except.ok.injEq] at h
    refine ⟨(batch.foldl quote_step (w, st.published_quotes)).1, ?_, ?_⟩
    · rw [← h]
    · exact (quote_fold_facts batch w st.published_quotes).1
  · intro hinv
    cases hst : st.latest_timestamp with
    | some w =>
        rw [update_published_quotes.eq_def, hst] at h
        simp only [Except.ok.injEq] at h
        intro a b q hq
        rw [← h] at hq
        refine ⟨(batch.foldl quote_step (w, st.published_quotes)).1,
          by rw [← h], ?_⟩
        refine (quote_fold_facts batch w st.published_quotes).2 ?_ a b q hq
        intro a2 b2 q2 hq2
        rcases hinv a2 b2 q2 hq2 with ⟨w2, hw2, hle⟩
        rw [hst] at hw2
        cases hw2
        exact hle
    | none =>
        rw [update_published_quotes.eq_def, hst] at h
        cases hb : batch with
        | nil => rw [hb] at h; exact absurd h (by simp)
        | cons q0 rest =>
            rw [hb] at h
            simp only [Except.ok.injEq] at h
            intro a b q hq
            rw [← h] at hq
            refine ⟨((q0 :: rest).foldl quote_step
              (q0.timestamp, st.published_quotes)).1, by rw [← h], ?_⟩
            refine (quote_fold_facts (q0 :: rest) q0.timestamp
              st.published_quotes).2 ?_ a b q hq
            intro a2 b2 q2 hq2
            rcases hinv a2 b2 q2 hq2 with ⟨w2, hw2, _⟩
            rw [hst] at hw2
            exact Option.noConfusion hw2
  · intro hinv a b q hq
    simp only at hq
    rw [clean_eq_delfold, lookup2_delfold _ _ hwf] at hq
    by_cases hm : (a, b) ∈ staleItems sd t st2.published_quotes
    · rw [if_pos hm] at hq
      exact Option.noConfusion hq
    · rw [if_neg hm] at hq
      exact hinv a b q hq

/-- Witness for C10: a store at watermark 3 accepting a batch stamped 4. -/
theorem C10_watermark_invariant_witness :
    update_published_quotes ⟨[], some 3⟩ [⟨4, "A", "B", 2⟩] =
      .ok ⟨[("A", [("B", (4, 2))])], some 4⟩ ∧
    StoreInv ⟨[("A", [("B", (4, 2))])], some 4⟩ := by
  have h : update_published_quotes ⟨[], some 3⟩ [⟨4, "A", "B", 2⟩] =
      .ok ⟨[("A", [("B", (4, 2))])], some 4⟩ := rfl
  refine ⟨h, ?_⟩
  refine (C10_watermark_invariant ⟨[], some 3⟩ [⟨4, "A", "B", 2⟩]
    ⟨[("A", [("B", (4, 2))])], some 4⟩ h 0 0 ⟨by decide, by decide⟩).2.1 ?_
  intro a b q hq
  simp [lookup2, alookup] at hq

/-- C3 (code bug): with only the reverse-direction quote GBP→USD at rate 2
stored, `_get_exchange_rate("USD", "GBP")` returns the stored rate `2`
itself, whereas the specified fallback is the reciprocal `1/2`.  The
returned value is wrong whenever the rate is not 1. -/
theorem C3_reciprocal_code_bug :
    get_exchange_rate [("GBP", [("USD", (0, 2))])] "USD" "GBP" = .ok 2 ∧
    spec_get_exchange_rate [("GBP", [("USD", (0, 2))])] "USD" "GBP" =
      .ok (1 / 2) ∧
    (2 : ℚ) ≠ 1 / 2 :=
  ⟨rfl, rfl, by norm_num⟩

/-- C4 (code bug): `_unmarshal_message` is not defensive.  A 33-byte
buffer (one full record plus one trailing byte, so `floor(N/32) = 1`
record per the claim) raises (`.error`) instead of ignoring the trailing
byte; a 22-byte buffer (`floor(N/32) = 0` records per the claim) yields
one record decoded from the partial window; a well-formed 64-byte buffer
does decode to its 2 records. -/
theorem C4_codec_code_bug :
    unmarshal_message (List.replicate 33 0) = .error () ∧
    (33 : ℕ) / 32 = 1 ∧
    unmarshal_message (List.replicate 22 0) =
      .ok [⟨0, [0, 0, 0], [0, 0, 0], 0⟩] ∧
    (22 : ℕ) / 32 = 0 ∧
    unmarshal_message (List.replicate 64 0) =
      .ok [⟨0, [0, 0, 0], [0, 0, 0], 0⟩, ⟨0, [0, 0, 0], [0, 0, 0], 0⟩] :=
  ⟨rfl, rfl, rfl, rfl, rfl⟩

/-- C1 (code bug): the final scan of `get_negative_cycle` compares in the
wrong direction and without the tolerance.  On the relaxed state of the
3-vertex graph A→B, A→C, B→C (all weights 3, start A, tolerance 1), no
edge violates the claimed condition `distance[v] > distance[u] + w + tol`
(the claimed flag list is empty, so the claim predicts no extraction
attempt), yet the source's condition `distance[v] < distance[u] + w`
flags the relaxed edge (B, C) and extraction is attempted from C; the
call only returns the empty answer because the predecessor walk dies in
a `KeyError`. -/
theorem C1_scan_code_bug :
    code_flag_edges [("A", [("B", 3), ("C", 3)]), ("B", [("C", 3)]), ("C", [])]
      (shortest_paths
        [("A", [("B", 3), ("C", 3)]), ("B", [("C", 3)]), ("C", [])]
        "A" (1 : ℤ)).dist = [("B", "C")] ∧
    claim_flag_edges (1 : ℤ)
      [("A", [("B", 3), ("C", 3)]), ("B", [("C", 3)]), ("C", [])]
      (shortest_paths
        [("A", [("B", 3), ("C", 3)]), ("B", [("C", 3)]), ("C", [])]
        "A" (1 : ℤ)).dist = [] ∧
    claimFlag (1 : ℤ) (some 0) (some 10) 3 = true ∧
    codeFlag (some (0 : ℤ)) (some 10) 3 = false ∧
    get_negative_cycle
      [("A", [("B", 3), ("C", 3)]), ("B", [("C", 3)]), ("C", [])]
      (shortest_paths
        [("A", [("B", 3), ("C", 3)]), ("B", [("C", 3)]), ("C", [])]
        "A" (1 : ℤ)) (1 : ℤ) 50 = [] := by
  refine ⟨by decide, by decide, by decide, by decide, by decide⟩

/-- Counterexample to C2 as stated: on the self-loop edge (A, A, -3) with
tolerance 1, the source assigns twice (once inside `_distance_improved`,
once in `_relax_edges`), leaving `distance[A] = -6`, while the claimed
single update `distance[v] := distance[u] + w` would leave `-3`. -/
theorem C2_counterexample :
    (shortest_paths [("A", [("A", -3), ("B", 3)]), ("B", [])] "A"
      (1 : ℤ)).dist "A" = some (-6) ∧
    (spec_shortest_paths [("A", [("A", -3), ("B", 3)]), ("B", [])] "A"
      (1 : ℤ)).dist "A" = some (-3) :=
  ⟨by decide, by decide⟩

theorem bfAssign_twice {α : Type} [LinearOrderedRing α] (st : BFState α)
    {u v : String} (h : u ≠ v) (w : α) :
    bfAssign (bfAssign st u v w) u v w = bfAssign st u v w := by
  unfold bfAssign
  congr 1
  · funext x
    by_cases hx : x = v
    · subst hx
      simp [upd, h]
    · simp [upd, hx]
  · funext x
    by_cases hx : x = v <;> simp [upd, hx]

theorem relaxEdge_eq_spec {α : Type} [LinearOrderedRing α] (tol : α)
    (st : BFState α) {u v : String} (h : u ≠ v) (w : α) :
    relaxEdge tol st u v w = specRelaxEdge tol st u v w := by
  cases hdu : st.dist u with
  | none =>
      cases hdv : st.dist v with
      | none => simp [relaxEdge, specRelaxEdge, hdu, hdv, improveCond]
      | some dv => simp [relaxEdge, specRelaxEdge, hdu, hdv, improveCond]
  | some du =>
      cases hdv : st.dist v with
      | none => simp [relaxEdge, specRelaxEdge, hdu, hdv]
      | some dv =>
          simp only [relaxEdge, specRelaxEdge, hdu, hdv, improveCond]
          by_cases hc : dv - (du + w) > tol
          · simp [hc, bfAssign_twice st h w]
          · simp [hc]

theorem relaxPass_eq_spec {α : Type} [LinearOrderedRing α] (tol : α)
    (g : Graph α) (h : ∀ e ∈ g, ∀ p ∈ e.2, e.1 ≠ p.1) (st : BFState α) :
    relaxPass tol g st = specRelaxPass tol g st := by
  have inner : ∀ (u : String) (l : List (String × α)), (∀ p ∈ l, u ≠ p.1) →
      ∀ st2 : BFState α,
        l.foldl (fun st3 p => relaxEdge tol st3 u p.1 p.2) st2 =
          l.foldl (fun st3 p => specRelaxEdge tol st3 u p.1 p.2) st2 := by
    intro u l hl
    induction l with
    | nil => intro st2; rfl
    | cons p ps ih =>
        intro st2
        rw [List.foldl_cons, List.foldl_cons,
          relaxEdge_eq_spec tol st2 (hl p (List.mem_cons_self _ _)) p.2]
        exact ih (fun p2 hp2 => hl p2 (List.mem_cons_of_mem _ hp2)) _
  unfold relaxPass specRelaxPass
  induction g generalizing st with
  | nil => rfl
  | cons e rest ih =>
      rw [List.foldl_cons, List.foldl_cons,
        inner e.1 e.2 (h e (List.mem_cons_self _ _)) st]
      exact ih (fun e2 he2 => h e2 (List.mem_cons_of_mem _ he2)) _

/-- C2 (amended): for every graph without self-loop edges,
`shortest_paths` behaves exactly as claimed — initialise every vertex to
`+∞` / `None` with `distance[start] = 0`, run exactly `|V| - 1` passes
over all edges with no early exit, and within a pass update
`distance[v] := distance[u] + w`, `predecessor[v] := u` exactly when
`distance[u] ≠ +∞` and `distance[v] - (distance[u] + w) > tolerance`
(with `distance[v] = +∞` counting as an improvement), leaving the state
unchanged otherwise.  On a self-loop edge meeting the condition the
source instead assigns twice in succession, leaving
`distance[v] = distance[u] + 2w` — see the counterexample. -/
theorem C2_relax_amended {α : Type} [LinearOrderedRing α] (g : Graph α)
    (start : String) (tol : α) (h : noSelfLoops g = true) :
    shortest_paths g start tol = spec_shortest_paths g start tol := by
  have h2 : ∀ e ∈ g, ∀ p ∈ e.2, e.1 ≠ p.1 := by
    intro e he p hp
    have h3 := List.all_eq_true.mp h e he
    have h4 := List.all_eq_true.mp h3 p hp
    exact of_decide_eq_true h4
  have hp : relaxPass tol g = specRelaxPass tol g :=
    funext (fun st => relaxPass_eq_spec tol g h2 st)
  unfold shortest_paths spec_shortest_paths
  rw [hp]

/-- Witness for C2 (amended) on a concrete self-loop-free graph. -/
theorem C2_relax_amended_witness :
    noSelfLoops [("A", [("B", (3 : ℤ))]), ("B", [])] = true ∧
    shortest_paths [("A", [("B", (3 : ℤ))]), ("B", [])] "A" (1 : ℤ) =
      spec_shortest_paths [("A", [("B", (3 : ℤ))]), ("B", [])] "A" (1 : ℤ) :=
  ⟨by decide, C2_relax_amended _ "A" 1 (by decide)⟩

theorem collectCycleAux_shape (p : String → Option String) (s : String) :
    ∀ (fuel : Nat) (x : String) (acc l : List String),
      collectCycleAux p s fuel x acc = .ok l →
      ∃ m, l = acc ++ m ∧ m ≠ [] ∧ m.getLast? = some s := by
  intro fuel
  induction fuel with
  | zero =>
      intro x acc l h
      exact absurd h (by simp [collectCycleAux])
  | succ f ih =>
      intro x acc l h
      simp only [collectCycleAux] at h
      by_cases hbr : x = s ∧ acc ≠ []
      · rw [if_pos hbr] at h
        simp only [Except.ok.injEq] at h
        exact ⟨[x], h.symm, by simp, by simp [hbr.1]⟩
      · rw [if_neg hbr] at h
        cases hp : p x with
        | none => rw [hp] at h; exact absurd h (by simp)
        | some y =>
            rw [hp] at h
            rcases ih y (acc ++ [x]) l h with ⟨m, hm, hne, hlast⟩
            refine ⟨[x] ++ m, by rw [hm, List.append_assoc], by simp, ?_⟩
            cases m with
            | nil => exact absurd rfl hne
            | cons b bs =>
                rw [List.cons_append, List.nil_append,
                  List.getLast?_cons_cons]
                exact hlast

theorem collectCycle_head_last (p : String → Option String) (s : String)
    (fuel : Nat) (cyc : List String)
    (h : collectCycleAux p s fuel s [] = .ok cyc) :
    cyc.head? = some s ∧ cyc.getLast? = some s := by
  cases fuel with
  | zero => exact absurd h (by simp [collectCycleAux])
  | succ f =>
      simp only [collectCycleAux] at h
      rw [if_neg (by simp)] at h
      cases hp : p s with
      | none => rw [hp] at h; exact absurd h (by simp)
      | some y =>
          rw [hp] at h
          rcases collectCycleAux_shape p s f y ([] ++ [s]) cyc h with
            ⟨m, hm, hne, hlast⟩
          subst hm
          constructor
          · simp
          · cases m with
            | nil => exact absurd rfl hne
            | cons b bs =>
                rw [List.nil_append, List.cons_append, List.nil_append,
                  List.getLast?_cons_cons]
                exact hlast

/-- C6: every non-empty cycle returned by `_identify_neg_cycle` starts
and ends at the same vertex, and the sum of the graph's edge weights
along its consecutive pairs is `≤ -tolerance`; when the extracted walk's
weight sum is above `-tolerance` the function returns the empty list
instead. -/
theorem C6_cycle_sound {α : Type} [LinearOrderedRing α] (g : Graph α)
    (p : String → Option String) (tol : α) (fuel : Nat) (v : String)
    (c : List String) (h : identify_neg_cycle g p tol fuel v = .ok c) :
    c = [] ∨
      (c.head? = c.getLast? ∧
        ∃ w, cycleWeightAux g c 0 = .ok w ∧ w ≤ -tol) := by
  unfold identify_neg_cycle at h
  cases hw : predWalk p v g.length with
  | none => rw [hw] at h; exact absurd h (by simp)
  | some s =>
      rw [hw] at h
      dsimp only at h
      cases hc : collectCycleAux p s fuel s [] with
      | error e => rw [hc] at h; exact absurd h (by simp)
      | ok cyc =>
          rw [hc] at h
          dsimp only at h
          cases hws : cycleWeightAux g cyc.reverse 0 with
          | error e => rw [hws] at h; exact absurd h (by simp)
          | ok wsum =>
              rw [hws] at h
              simp only [Except.ok.injEq] at h
              by_cases hle : wsum ≤ -tol
              · rw [if_pos hle] at h
                right
                obtain ⟨hh, hl⟩ := collectCycle_head_last p s fuel cyc hc
                refine ⟨?_, wsum, by rw [← h]; exact hws, hle⟩
                rw [← h, List.head?_reverse, List.getLast?_reverse, hh, hl]
              · rw [if_neg hle] at h
                exact Or.inl h.symm

/-- Witness for C6: a 2-cycle A↔B with weights -2, predecessor map
A↦B↦A, tolerance 1; the extracted cycle is [A, B, A] with weight -4. -/
theorem C6_cycle_sound_witness :
    identify_neg_cycle [("A", [("B", (-2 : ℤ))]), ("B", [("A", -2)])]
      (fun x => if x = "A" then some "B" else
        if x = "B" then some "A" else none) (1 : ℤ) 10 "A" =
      .ok ["A", "B", "A"] ∧
    ((["A", "B", "A"] : List String) = [] ∨
      ((["A", "B", "A"] : List String).head? =
          (["A", "B", "A"] : List String).getLast? ∧
        ∃ w, cycleWeightAux [("A", [("B", (-2 : ℤ))]), ("B", [("A", -2)])]
          ["A", "B", "A"] 0 = .ok w ∧ w ≤ -(1 : ℤ))) :=
  ⟨rfl, C6_cycle_sound [("A", [("B", (-2 : ℤ))]), ("B", [("A", -2)])]
    (fun x => if x = "A" then some "B" else
      if x = "B" then some "A" else none) 1 10 "A" ["A", "B", "A"] rfl⟩

/-- Counterexample to C9 as stated: over the 1-vertex graph [("A", [])]
(so `|V| = 1`) take the predecessor map V↦B, B↦C, C↦D, D↦C.  Every
vertex reached from the flagged vertex V has a non-none predecessor that
is a key of the map, yet the vertex B reached after `|V| = 1` steps is
never revisited — the walk enters the cycle C↔D, which does not contain
B — so it is not revisited within `|V|` further steps (step 2 yields C),
and the while-loop walk from B never exits (fuel 100 is exhausted).  The
claim needs the reached vertices to lie among the graph's vertices. -/
theorem C9_counterexample :
    predWalk (fun x => if x = "V" then some "B" else if x = "B" then some "C"
      else if x = "C" then some "D" else if x = "D" then some "C"
      else none) "V" 1 = some "B" ∧
    predWalk (fun x => if x = "V" then some "B" else if x = "B" then some "C"
      else if x = "C" then some "D" else if x = "D" then some "C"
      else none) "V" 2 = some "C" ∧
    predWalk (fun x => if x = "V" then some "B" else if x = "B" then some "C"
      else if x = "C" then some "D" else if x = "D" then some "C"
      else none) "V" 4 = some "C" ∧
    predWalk (fun x => if x = "V" then some "B" else if x = "B" then some "C"
      else if x = "C" then some "D" else if x = "D" then some "C"
      else none) "V" (1 + 1) ≠
      predWalk (fun x => if x = "V" then some "B" else if x = "B" then some "C"
        else if x = "C" then some "D" else if x = "D" then some "C"
        else none) "V" 1 ∧
    ([("A", [])] : Graph ℤ).length = 1 ∧
    collectCycleAux (fun x => if x = "V" then some "B" else
      if x = "B" then some "C" else if x = "C" then some "D" else
      if x = "D" then some "C" else none) "B" 100 "B" [] = .error () :=
  ⟨by decide, by decide, by decide, by decide, by decide, rfl⟩

theorem predWalk_add (p : String → Option String) (x : String) (i j : Nat) :
    predWalk p x (i + j) = (predWalk p x i).bind (fun y => predWalk p y j) := by
  induction i generalizing x with
  | zero => simp [predWalk]
  | succ n ih =>
      rw [Nat.succ_add]
      cases hp : p x with
      | none => simp [predWalk, hp]
      | some y => simp [predWalk, hp, ih]

theorem collect_terminates (p : String → Option String) (s : String) (d : Nat)
    (hret : predWalk p s d = some s)
    (hdef : ∀ k, k ≤ d → (predWalk p s k).isSome = true) :
    ∀ (n j : Nat) (x : String) (acc : List String), 1 ≤ j → j ≤ d →
      acc ≠ [] → predWalk p s j = some x → d + 1 - j ≤ n →
      ∃ l, collectCycleAux p s n x acc = .ok l := by
  intro n
  induction n with
  | zero =>
      intro j x acc h1 h2 _ _ h5
      omega
  | succ n ih =>
      intro j x acc h1 h2 hacc hx h5
      by_cases hxs : x = s
      · refine ⟨acc ++ [x], ?_⟩
        simp only [collectCycleAux]
        rw [if_pos ⟨hxs, hacc⟩]
      · have hjd : j < d := by
          rcases Nat.lt_or_ge j d with h | h
          · exact h
          · exfalso
            have hjd2 : j = d := le_antisymm h2 h
            rw [hjd2, hret] at hx
            injection hx with hx2
            exact hxs hx2.symm
        have hdef2 := hdef (j + 1) (by omega)
        have hw1 : predWalk p s (j + 1) = predWalk p x 1 := by
          rw [predWalk_add p s j 1, hx]
          rfl
        cases hp : p x with
        | none =>
            rw [hw1] at hdef2
            simp [predWalk, hp] at hdef2
        | some x2 =>
            have hx2 : predWalk p s (j + 1) = some x2 := by
              rw [hw1]
              simp [predWalk, hp]
            rcases ih (j + 1) x2 (acc ++ [x]) (by omega) (by omega)
              (by simp) hx2 (by omega) with ⟨l, hl⟩
            refine ⟨l, ?_⟩
            simp only [collectCycleAux]
            rw [if_neg (fun hco => hxs hco.1), hp]
            exact hl

/-- C9 (amended): if every vertex reached by following predecessor links
from the flagged vertex `v` (up to `2 |V|` steps, which is all this needs)
has a non-none predecessor and lies among the graph's vertices, then the
vertex `s` reached after `|V|` predecessor steps is revisited after at
most `|V|` further steps, and the `while True:` walk of
`_identify_neg_cycle`, given fuel `|V| + 1`, exits with a cycle. -/
theorem C9_walk_terminates {α : Type} [LinearOrderedRing α] (g : Graph α)
    (p : String → Option String) (v s : String)
    (hs : predWalk p v g.length = some s)
    (htot : ∀ k, k ≤ 2 * g.length → (predWalk p v k).isSome = true)
    (hmem : ∀ k, k ≤ 2 * g.length →
      ((predWalk p v k).all fun y => decide (y ∈ g.map Prod.fst)) = true) :
    (∃ d, 1 ≤ d ∧ d ≤ g.length ∧ predWalk p v (g.length + d) = some s) ∧
    ∃ l, collectCycleAux p s (g.length + 1) s [] = .ok l := by
  set n := g.length with hn
  have hn1 : 1 ≤ n := by
    by_contra hcon
    have hn0 : n = 0 := by omega
    have h0 := hmem 0 (by omega)
    have hg : g = [] := List.length_eq_zero.mp hn0
    rw [hg] at h0
    simp [predWalk] at h0
  -- every walk value with index 1..n+1 exists and is a graph vertex
  have hval : ∀ i : Fin (n + 1), ∃ y, predWalk p v (i.1 + 1) = some y ∧
      y ∈ g.map Prod.fst := by
    intro i
    have hi2 : i.1 + 1 ≤ 2 * n := by omega
    have h1 := htot (i.1 + 1) hi2
    cases hw : predWalk p v (i.1 + 1) with
    | none => rw [hw] at h1; simp at h1
    | some y =>
        have h2 := hmem (i.1 + 1) hi2
        rw [hw] at h2
        have h3 : decide (y ∈ g.map Prod.fst) = true := h2
        exact ⟨y, rfl, of_decide_eq_true h3⟩
  classical
  choose F hF hFmem using hval
  -- pigeonhole over the vertex set
  have hcard : (g.map Prod.fst).toFinset.card < (Finset.univ : Finset (Fin (n + 1))).card := by
    have h1 : (g.map Prod.fst).toFinset.card ≤ (g.map Prod.fst).length :=
      List.toFinset_card_le _
    rw [List.length_map] at h1
    simp only [Finset.card_univ, Fintype.card_fin]
    omega
  have hmaps : ∀ i ∈ (Finset.univ : Finset (Fin (n + 1))),
      F i ∈ (g.map Prod.fst).toFinset := by
    intro i _
    exact List.mem_toFinset.mpr (hFmem i)
  rcases Finset.exists_ne_map_eq_of_card_lt_of_maps_to hcard hmaps with
    ⟨a, _, b, _, hab, hFab⟩
  -- order the colliding indices
  have hkey : ∃ a2 b2 : Fin (n + 1), a2.1 < b2.1 ∧ F a2 = F b2 := by
    rcases Nat.lt_or_ge a.1 b.1 with h | h
    · exact ⟨a, b, h, hFab⟩
    · have hne : a.1 ≠ b.1 := fun he => hab (Fin.ext he)
      exact ⟨b, a, by omega, hFab.symm⟩
  rcases hkey with ⟨a2, b2, hlt, hFeq⟩
  have ha1 : predWalk p v (a2.1 + 1) = some (F a2) := hF a2
  have hb1 : predWalk p v (b2.1 + 1) = some (F b2) := hF b2
  have heq1 : predWalk p v (a2.1 + 1) = predWalk p v (b2.1 + 1) := by
    rw [ha1, hb1, hFeq]
  -- lift the collision to a period at every later index
  have hperiod : ∀ m, predWalk p v (a2.1 + 1 + m) = predWalk p v (b2.1 + 1 + m) := by
    intro m
    rw [predWalk_add p v (a2.1 + 1) m, predWalk_add p v (b2.1 + 1) m, heq1]
  have hb2n : b2.1 ≤ n := by omega
  have ha2n : a2.1 + 1 ≤ n := by omega
  have hd1 : predWalk p v (n + (b2.1 - a2.1)) = some s := by
    have h1 := hperiod (n - (a2.1 + 1))
    have h2 : a2.1 + 1 + (n - (a2.1 + 1)) = n := by omega
    have h3 : b2.1 + 1 + (n - (a2.1 + 1)) = n + (b2.1 - a2.1) := by omega
    rw [h2, h3] at h1
    rw [← h1, hs]
  have hdex : ∃ d, 1 ≤ d ∧ d ≤ n ∧ predWalk p v (n + d) = some s :=
    ⟨b2.1 - a2.1, by omega, by omega, hd1⟩
  refine ⟨hdex, ?_⟩
  -- the walk from s mirrors the walk from v shifted by n steps
  have hsk : ∀ k, predWalk p v (n + k) = predWalk p s k := by
    intro k
    rw [predWalk_add p v n k, hs]
    rfl
  rcases hdex with ⟨d, hd1', hdn, hdret⟩
  have hsret : predWalk p s d = some s := by rw [← hsk d]; exact hdret
  have hsdef : ∀ k, k ≤ d → (predWalk p s k).isSome = true := by
    intro k hk
    rw [← hsk k]
    exact htot (n + k) (by omega)
  -- walk one explicit step from s, then apply the bounded-walk lemma
  have h1def := hsdef 1 (by omega)
  cases hp : p s with
  | none => simp [predWalk, hp] at h1def
  | some x1 =>
      have hx1 : predWalk p s 1 = some x1 := by simp [predWalk, hp]
      rcases collect_terminates p s d hsret hsdef n 1 x1 [s] (by omega)
        (by omega) (by simp) hx1 (by omega) with ⟨l, hl⟩
      refine ⟨l, ?_⟩
      simp only [collectCycleAux]
      rw [if_neg (by simp), hp]
      exact hl

/-- Witness for C9 (amended): 2-vertex graph {A, B}, predecessor map
A↦B↦A, flagged vertex A; after `|V| = 2` steps the walk is back at A. -/
theorem C9_walk_terminates_witness :
    predWalk (fun x => if x = "A" then some "B" else
      if x = "B" then some "A" else none) "A"
      ([("A", []), ("B", [])] : Graph ℤ).length = some "A" ∧
    (∀ k, k ≤ 2 * ([("A", []), ("B", [])] : Graph ℤ).length →
      (predWalk (fun x => if x = "A" then some "B" else
        if x = "B" then some "A" else none) "A" k).isSome = true) ∧
    (∀ k, k ≤ 2 * ([("A", []), ("B", [])] : Graph ℤ).length →
      ((predWalk (fun x => if x = "A" then some "B" else
        if x = "B" then some "A" else none) "A" k).all fun y =>
          decide (y ∈ ([("A", []), ("B", [])] : Graph ℤ).map Prod.fst)) = true) ∧
    ((∃ d, 1 ≤ d ∧ d ≤ ([("A", []), ("B", [])] : Graph ℤ).length ∧
        predWalk (fun x => if x = "A" then some "B" else
          if x = "B" then some "A" else none) "A"
          (([("A", []), ("B", [])] : Graph ℤ).length + d) = some "A") ∧
      ∃ l, collectCycleAux (fun x => if x = "A" then some "B" else
        if x = "B" then some "A" else none) "A"
        (([("A", []), ("B", [])] : Graph ℤ).length + 1) "A" [] = .ok l) :=
  ⟨by decide, by decide, by decide,
    C9_walk_terminates ([("A", []), ("B", [])] : Graph ℤ)
      (fun x => if x = "A" then some "B" else
        if x = "B" then some "A" else none) "A" "A"
      (by decide) (by decide) (by decide)⟩

/-- Counterexample to C7 as stated: store both directions,
`(A, B, rate 2)` and `(B, A, rate 2)`.  The second quote's derived
reverse edge overwrites the first quote's forward edge, so the graph
holds `A→B = +log 2`, not the claimed `-log 2` for stored quote
`(A, B, 2)` (and `log 2 ≠ -log 2`). -/
theorem C7_counterexample :
    lookup2 (construct_graph [("A", [("B", (0, 2))]), ("B", [("A", (0, 2))])])
      "A" "B" = some (Real.log ((2 : ℚ) : ℝ)) ∧
    Real.log ((2 : ℚ) : ℝ) ≠ -Real.log ((2 : ℚ) : ℝ) := by
  constructor
  · rfl
  · have h2 : ((2 : ℚ) : ℝ) = 2 := by norm_num
    rw [h2]
    have hpos : 0 < Real.log 2 := Real.log_pos (by norm_num)
    intro h
    linarith

theorem construct_eq_flat (pq : QStore) :
    construct_graph pq = (quoteItems pq).foldl insertQuote [] := by
  have main : ∀ (l : QStore) (g0 : Graph ℝ),
      l.foldl (fun g e =>
        e.2.foldl (fun g2 q => insertQuote g2 (e.1, q.1, q.2)) g) g0 =
      (quoteItems l).foldl insertQuote g0 := by
    intro l
    induction l with
    | nil => intro g0; rfl
    | cons e rest ih =>
        intro g0
        rw [List.foldl_cons, ih, quoteItems_cons, List.foldl_append,
          List.foldl_map]
  exact main pq []

theorem lookup2_ensure {β : Type} (st : List (String × List (String × β)))
    (c a b : String) :
    lookup2 (ensureKey st c) a b = lookup2 st a b := by
  unfold ensureKey
  cases hc : alookup st c with
  | some _ => rfl
  | none =>
      unfold lookup2
      rw [alookup_aset]
      by_cases ha : a = c
      · subst ha
        rw [if_pos rfl, hc]
        simp [alookup]
      · rw [if_neg ha]

theorem lookup2_insertQuote (g : Graph ℝ) (it : String × String × QuoteData)
    (a b : String) :
    lookup2 (insertQuote g it) a b =
      if a = it.2.1 ∧ b = it.1 then some (Real.log ((it.2.2.2 : ℚ) : ℝ))
      else if a = it.1 ∧ b = it.2.1 then some (-Real.log ((it.2.2.2 : ℚ) : ℝ))
      else lookup2 g a b := by
  unfold insertQuote
  rw [lookup2_set2]
  by_cases h1 : a = it.2.1 ∧ b = it.1
  · rw [if_pos h1, if_pos h1]
  · rw [if_neg h1, if_neg h1, lookup2_set2]
    by_cases h2 : a = it.1 ∧ b = it.2.1
    · rw [if_pos h2, if_pos h2]
    · rw [if_neg h2, if_neg h2, lookup2_ensure, lookup2_ensure]

theorem flat_nowrite (a b : String) (l : List (String × String × QuoteData)) :
    ∀ g : Graph ℝ,
      (∀ it ∈ l, ¬ (it.1 = a ∧ it.2.1 = b) ∧ ¬ (it.1 = b ∧ it.2.1 = a)) →
      lookup2 (l.foldl insertQuote g) a b = lookup2 g a b := by
  induction l with
  | nil => intro g _; rfl
  | cons it rest ih =>
      intro g h
      rw [List.foldl_cons, ih _ (fun it2 hit2 => h it2 (List.mem_cons_of_mem _ hit2)),
        lookup2_insertQuote]
      have hh := h it (List.mem_cons_self _ _)
      rw [if_neg (fun hc => hh.2 ⟨hc.2.symm, hc.1.symm⟩),
        if_neg (fun hc => hh.1 ⟨hc.1.symm, hc.2.symm⟩)]

theorem flat_forward (a b : String) (ts : ℤ) (r : ℚ)
    (l : List (String × String × QuoteData)) :
    ∀ g : Graph ℝ, (a, b, (ts, r)) ∈ l →
      (l.map (fun it => (it.1, it.2.1))).Nodup →
      (∀ it ∈ l, (b, a) ≠ (it.1, it.2.1)) →
      lookup2 (l.foldl insertQuote g) a b = some (-Real.log ((r : ℚ) : ℝ)) ∧
      lookup2 (l.foldl insertQuote g) b a = some (Real.log ((r : ℚ) : ℝ)) := by
  induction l with
  | nil => intro g hm _ _; simp at hm
  | cons it rest ih =>
      intro g hm hnd hnr
      rw [List.map_cons, List.nodup_cons] at hnd
      by_cases hit : it = (a, b, (ts, r))
      · subst hit
        have hab : a ≠ b := by
          intro he
          exact hnr (a, b, (ts, r)) (List.mem_cons_self _ _) (by rw [he])
        have hnw : ∀ it2 ∈ rest,
            ¬ (it2.1 = a ∧ it2.2.1 = b) ∧ ¬ (it2.1 = b ∧ it2.2.1 = a) := by
          intro it2 h2
          constructor
          · intro hc
            exact hnd.1 (List.mem_map.mpr ⟨it2, h2, by simp [hc.1, hc.2]⟩)
          · intro hc
            exact hnr it2 (List.mem_cons_of_mem _ h2) (by simp [hc.1, hc.2])
        rw [List.foldl_cons,
          flat_nowrite a b rest _ hnw,
          flat_nowrite b a rest _ (fun it2 h2 => ⟨(hnw it2 h2).2, (hnw it2 h2).1⟩),
          lookup2_insertQuote, lookup2_insertQuote]
        constructor
        · rw [if_neg (fun hc => hab hc.1), if_pos ⟨rfl, rfl⟩]
        · rw [if_pos ⟨rfl, rfl⟩]
      · have hm2 : (a, b, (ts, r)) ∈ rest := by
          rcases List.mem_cons.mp hm with h1 | h1
          · exact absurd h1.symm hit
          · exact h1
        rw [List.foldl_cons]
        exact ih (insertQuote g it) hm2 hnd.2
          (fun it2 h2 => hnr it2 (List.mem_cons_of_mem _ h2))

theorem alookup_set2_isSome {β : Type} (st : List (String × List (String × β)))
    (a2 b2 x : String) (v : β) :
    (alookup (set2 st a2 b2 v) x).isSome = true ↔
      x = a2 ∨ (alookup st x).isSome = true := by
  unfold set2
  cases hl : alookup st a2 with
  | none =>
      rw [alookup_aset]
      by_cases hx : x = a2 <;> simp [hx]
  | some inner =>
      rw [alookup_aset]
      by_cases hx : x = a2
      · subst hx
        simp [hl]
      · simp [hx]

theorem alookup_ensure_isSome {β : Type} (st : List (String × List (String × β)))
    (c x : String) :
    (alookup (ensureKey st c) x).isSome = true ↔
      x = c ∨ (alookup st x).isSome = true := by
  unfold ensureKey
  cases hc : alookup st c with
  | none =>
      rw [alookup_aset]
      by_cases hx : x = c <;> simp [hx]
  | some inner =>
      constructor
      · exact fun h => Or.inr h
      · intro h
        rcases h with h | h
        · subst h
          simp [hc]
        · exact h

theorem alookup_insertQuote_isSome (g : Graph ℝ)
    (it : String × String × QuoteData) (x : String) :
    (alookup (insertQuote g it) x).isSome = true ↔
      x = it.1 ∨ x = it.2.1 ∨ (alookup g x).isSome = true := by
  unfold insertQuote
  rw [alookup_set2_isSome, alookup_set2_isSome, alookup_ensure_isSome,
    alookup_ensure_isSome]
  tauto

theorem flat_vertices (l : List (String × String × QuoteData)) :
    ∀ (g : Graph ℝ) (x : String),
      (alookup (l.foldl insertQuote g) x).isSome = true ↔
        (∃ it ∈ l, x = it.1 ∨ x = it.2.1) ∨ (alookup g x).isSome = true := by
  induction l with
  | nil => intro g x; simp
  | cons it rest ih =>
      intro g x
      rw [List.foldl_cons, ih, alookup_insertQuote_isSome]
      constructor
      · rintro (⟨it2, h2, h3⟩ | h | h | h)
        · exact Or.inl ⟨it2, List.mem_cons_of_mem _ h2, h3⟩
        · exact Or.inl ⟨it, List.mem_cons_self _ _, Or.inl h⟩
        · exact Or.inl ⟨it, List.mem_cons_self _ _, Or.inr h⟩
        · exact Or.inr h
      · rintro (⟨it2, h2, h3⟩ | h)
        · rcases List.mem_cons.mp h2 with h4 | h4
          · subst h4
            rcases h3 with h3 | h3
            · exact Or.inr (Or.inl h3)
            · exact Or.inr (Or.inr (Or.inl h3))
          · exact Or.inl ⟨it2, h4, h3⟩
        · exact Or.inr (Or.inr (Or.inr h))

theorem mem_quoteCurrencies (pq : QStore) (x : String) :
    x ∈ quoteCurrencies pq ↔ ∃ it ∈ quoteItems pq, x = it.1 ∨ x = it.2.1 := by
  unfold quoteCurrencies
  induction quoteItems pq with
  | nil => simp
  | cons it rest ih =>
      simp only [List.foldr_cons, List.mem_cons, ih]
      constructor
      · rintro (h | h | ⟨it2, h2, h3⟩)
        · exact ⟨it, Or.inl rfl, Or.inl h⟩
        · exact ⟨it, Or.inl rfl, Or.inr h⟩
        · exact ⟨it2, Or.inr h2, h3⟩
      · rintro ⟨it2, h2 | h2, h3⟩
        · subst h2
          rcases h3 with h3 | h3
          · exact Or.inl h3
          · exact Or.inr (Or.inl h3)
        · exact Or.inr (Or.inr ⟨it2, h2, h3⟩)

theorem storePairs_nodup (pq : QStore) (hwf : wfStore pq) :
    ((quoteItems pq).map (fun it => (it.1, it.2.1))).Nodup := by
  induction pq with
  | nil => simp [quoteItems]
  | cons e rest ih =>
      have h1 := hwf.1
      rw [List.map_cons, List.nodup_cons] at h1
      have hrest : wfStore rest :=
        ⟨h1.2, fun e2 he2 => hwf.2 e2 (List.mem_cons_of_mem _ he2)⟩
      have hinner : (e.2.map Prod.fst).Nodup :=
        hwf.2 e (List.mem_cons_self _ _)
      rw [quoteItems_cons, List.map_append]
      rw [List.nodup_append]
      refine ⟨?_, ih hrest, ?_⟩
      · rw [List.map_map]
        have he : ((fun it : String × String × QuoteData => (it.1, it.2.1)) ∘
            (fun q : String × QuoteData => (e.1, q.1, q.2))) =
            (fun y : String => (e.1, y)) ∘ Prod.fst := by
          funext q
          rfl
        rw [he, ← List.map_map]
        exact hinner.map (fun y1 y2 hy => by
          rw [Prod.mk.injEq] at hy
          exact hy.2)
      · intro pr hpr1 hpr2
        rcases List.mem_map.mp hpr1 with ⟨q1, hq1m, he1⟩
        rcases List.mem_map.mp hq1m with ⟨q0, _, hq0⟩
        rcases List.mem_map.mp hpr2 with ⟨it2, hit2, he2⟩
        have hfst2 : it2.1 ∈ rest.map Prod.fst := by
          obtain ⟨i1, i2, iq⟩ := it2
          exact quoteItems_fst_mem hit2
        have hpe : pr.1 = e.1 := by rw [← he1, ← hq0]
        have hpi : pr.1 = it2.1 := by rw [← he2]
        rw [← hpi, hpe] at hfst2
        exact h1.1 hfst2

/-- C7 (amended): for every quote store, the constructed graph's vertex
set is exactly the set of currencies appearing in some stored quote as
source or destination (unconditionally); and for every well-formed store
in which no stored pair's reverse pair is also stored, the graph
contains, for every stored Quote(A, B, rate), the edge A→B with weight
`-ln(rate)` and the derived edge B→A with weight `+ln(rate)`.  When both
(A, B) and (B, A) are stored, the pair iterated later overwrites both
edge weights — see the counterexample. -/
theorem C7_graph_amended (pq : QStore) :
    (∀ x, (alookup (construct_graph pq) x).isSome = true ↔
        x ∈ quoteCurrencies pq) ∧
    (wfStore pq →
      (∀ pr ∈ storePairs pq, (pr.2, pr.1) ∉ storePairs pq) →
      ∀ (a b : String) (ts : ℤ) (r : ℚ), lookup2 pq a b = some (ts, r) →
        lookup2 (construct_graph pq) a b = some (-Real.log ((r : ℚ) : ℝ)) ∧
        lookup2 (construct_graph pq) b a = some (Real.log ((r : ℚ) : ℝ))) := by
  constructor
  · intro x
    rw [construct_eq_flat, flat_vertices, mem_quoteCurrencies]
    simp [alookup]
  · intro hwf hrev a b ts r hq
    have hm : (a, b, (ts, r)) ∈ quoteItems pq :=
      (mem_quoteItems hwf a b (ts, r)).mpr hq
    have hnd := storePairs_nodup pq hwf
    have hpr : (a, b) ∈ storePairs pq :=
      List.mem_map.mpr ⟨(a, b, (ts, r)), hm, rfl⟩
    have hnr : ∀ it ∈ quoteItems pq, (b, a) ≠ (it.1, it.2.1) := by
      intro it hit he
      exact hrev (a, b) hpr (he ▸ List.mem_map.mpr ⟨it, hit, rfl⟩)
    rw [construct_eq_flat]
    exact flat_forward a b ts r (quoteItems pq) [] hm hnd hnr

/-- Witness for C7 (amended) on a one-quote store (A, B, rate 2),
exercising both the unconditional vertex-set half and the
hypothesis-guarded edge-weight half. -/
theorem C7_graph_amended_witness :
    wfStore [("A", [("B", ((0 : ℤ), (2 : ℚ)))])] ∧
    lookup2 (construct_graph [("A", [("B", ((0 : ℤ), (2 : ℚ)))])]) "A" "B" =
      some (-Real.log ((2 : ℚ) : ℝ)) ∧
    lookup2 (construct_graph [("A", [("B", ((0 : ℤ), (2 : ℚ)))])]) "B" "A" =
      some (Real.log ((2 : ℚ) : ℝ)) ∧
    ((alookup (construct_graph [("A", [("B", ((0 : ℤ), (2 : ℚ)))])])
        "A").isSome = true ↔
      "A" ∈ quoteCurrencies [("A", [("B", ((0 : ℤ), (2 : ℚ)))])]) := by
  have h := (C7_graph_amended [("A", [("B", ((0 : ℤ), (2 : ℚ)))])]).2
    ⟨by decide, by decide⟩ (by decide) "A" "B" 0 2 rfl
  exact ⟨⟨by decide, by decide⟩, h.1, h.2,
    (C7_graph_amended [("A", [("B", ((0 : ℤ), (2 : ℚ)))])]).1 "A"⟩
